import Mathlib

/-!
Shallow embedding of the crypto_portfolio_project core
(`src/portfolio_tools.py` and `src/data_loader.py`).

Modelling conventions:
* pandas cells are `Option ℚ`: `none` stands for NaN / a missing cell,
  `some q` for an ordinary (finite) float, modelled as an exact rational.
* Where IEEE infinities genuinely arise in the source (division by an
  exact zero in `pct_change` and in the drawdown quotient), values live in
  `FV`, which adds `+∞` / `-∞` to the rationals; NaN stays `none`.
* `pd.Series.std` is the square root of the sample variance (ddof = 1).
  ℚ has no exact square root, so the embedding takes the square-root
  function as an explicit parameter `sq`; theorems assume only
  `sq 0 = 0` and that `sq` maps positives to positives, both true of the
  real square root, so every theorem specialises to the real one.
* pandas reductions (`sum`, `prod`, `mean`, `std`, `min`, `quantile`,
  `cumprod`, `cummax`) skip NaN, which the embedding mirrors; elementwise
  arithmetic and `DataFrame.dot` propagate NaN, which it also mirrors.
* A `DF α` is a date-indexed frame: column labels in order, and one
  row per date holding the cells in column order.
-/

namespace CryptoPortfolio

/-- A float value that is not NaN: a finite rational or a signed infinity. -/
inductive FV where
  | fin : ℚ → FV
  | pinf : FV
  | ninf : FV
deriving DecidableEq

/-- IEEE-style division producing `none` for NaN (0/0) and infinities for
division of a nonzero number by zero. -/
def fdiv (a b : ℚ) : Option FV :=
  if b ≠ 0 then some (.fin (a / b))
  else if 0 < a then some .pinf
  else if a < 0 then some .ninf
  else none

/-- Order on non-NaN float values, `-∞ < finite < +∞`. -/
def FV.le : FV → FV → Bool
  | .ninf, _ => true
  | _, .pinf => true
  | .fin a, .fin b => decide (a ≤ b)
  | _, _ => false

/-- A date-indexed data frame: ordered column labels, and ordered rows
`(date, cells)` with cells listed in column order. -/
structure DF (α : Type) where
  cols : List String
  rows : List (String × List (Option α))
deriving DecidableEq

/-- The cells of column `j`, top to bottom (missing positions read as NaN). -/
def DF.colVals (df : DF ℚ) (j : ℕ) : List (Option ℚ) :=
  df.rows.map (fun r => r.2.getD j none)

/-- The non-NaN entries of a column, in order (what pandas reductions see). -/
def definedVals (xs : List (Option ℚ)) : List ℚ :=
  xs.filterMap id

/-- `Series.sum` (skipna): the sum of the defined entries, `0` if none. -/
def sumSkip (xs : List (Option ℚ)) : ℚ :=
  (definedVals xs).sum

/-- `(1 + s).prod()` (skipna): the product of `1 + x` over defined entries. -/
def prodOnePlus (xs : List (Option ℚ)) : ℚ :=
  (definedVals xs).foldr (fun x p => (1 + x) * p) 1

/-- `Series.mean` (skipna): NaN when no entry is defined. -/
def meanSkip (xs : List (Option ℚ)) : Option ℚ :=
  match definedVals xs with
  | [] => none
  | v => some (v.sum / (v.length : ℚ))

/-- Arithmetic mean of a plain list. -/
def listMean (v : List ℚ) : ℚ := v.sum / (v.length : ℚ)

/-- Sample variance with `ddof = 1` over the defined entries
(the square of `Series.std`); NaN when fewer than two entries are defined. -/
def sampleVar (xs : List (Option ℚ)) : Option ℚ :=
  let v := definedVals xs
  if v.length < 2 then none
  else some ((v.map (fun x => (x - listMean v) ^ 2)).sum / ((v.length : ℚ) - 1))

/-- `Series.std` (ddof = 1), with the square root abstracted as `sq`. -/
def std (sq : ℚ → ℚ) (xs : List (Option ℚ)) : Option ℚ :=
  (sampleVar xs).map sq

/-- The two facts about the real square root that the theorems use. -/
def sqrtSpec (sq : ℚ → ℚ) : Prop :=
  sq 0 = 0 ∧ ∀ x : ℚ, 0 < x → 0 < sq x

/-- `Series.quantile` with the default linear interpolation:
on the sorted defined values `s` of length `n`, the `q`-quantile is
`s i + g * (s (i+1) - s i)` where `i = ⌊q * (n-1)⌋` and `g` the fractional
part. NaN (`none`) on an empty series. -/
def quantile (q : ℚ) (xs : List ℚ) : Option ℚ :=
  if xs.isEmpty then none
  else
    let s := List.insertionSort (· ≤ ·) xs
    let h : ℚ := q * ((s.length : ℚ) - 1)
    let i : ℕ := (⌊h⌋).toNat
    let g : ℚ := h - (⌊h⌋ : ℚ)
    some (s.getD i 0 + g * (s.getD (i + 1) (s.getD i 0) - s.getD i 0))

/-- The Python error that `compute_equal_weights` can actually raise
(`1 / n_assets` with `n_assets = 0`). -/
inductive PyError where
  | zeroDivision : PyError
deriving DecidableEq

/-- A weight vector / series: labels in order with possibly-NaN values. -/
abbrev WSeries := List (String × Option ℚ)

/-- `Series.sum` of a weight vector (skipna). -/
def wsum (w : WSeries) : ℚ :=
  ((w.map Prod.snd).filterMap id).sum

/-- `compute_equal_weights`: `1 / n_assets` broadcast over the columns;
`n_assets = 0` raises `ZeroDivisionError` before the Series is built. -/
def compute_equal_weights (df : DF ℚ) : Except PyError WSeries :=
  let n := df.cols.length
  if n = 0 then .error .zeroDivision
  else .ok (df.cols.map (fun c => (c, some (1 / (n : ℚ)))))

/-- `prev_month_returns.std()`: one volatility per column. -/
def volSeries (sq : ℚ → ℚ) (df : DF ℚ) : WSeries :=
  df.cols.enum.map (fun jc => (jc.2, std sq (df.colVals jc.1)))

/-- `1 / vol.replace(0, np.nan)`: zero volatilities become NaN, then the
pointwise reciprocal (NaN propagates). -/
def invVolSeries (sq : ℚ → ℚ) (df : DF ℚ) : WSeries :=
  (volSeries sq df).map (fun p =>
    (p.1, match p.2 with
          | some x => if x = 0 then none else some (1 / x)
          | none => none))

/-- `compute_vol_scaled_weights`: `inv_vol / inv_vol.sum()` (the sum skips
NaN; with a genuine square root every defined reciprocal is positive, so
the denominator is zero only when every entry is NaN). -/
def compute_vol_scaled_weights (sq : ℚ → ℚ) (df : DF ℚ) : WSeries :=
  let inv := invVolSeries sq df
  let s := ((inv.map Prod.snd).filterMap id).sum
  inv.map (fun p => (p.1, p.2.map (fun v => v / s)))

/-- `momentum = (1 + prev_month_returns).prod() - 1`, one value per column
(`prod` skips NaN, so the momentum of a column is always defined). -/
def momSeries (df : DF ℚ) : List (String × ℚ) :=
  df.cols.enum.map (fun jc => (jc.2, prodOnePlus (df.colVals jc.1) - 1))

/-- `compute_momentum_weights`: select the columns whose momentum is at or
above the `(1 - top_quantile)`-quantile, equal-weight them, zero weight
elsewhere; an empty frame yields an empty series (no error raised). -/
def compute_momentum_weights (df : DF ℚ) (top_q : ℚ) : WSeries :=
  let moms := momSeries df
  match quantile (1 - top_q) (moms.map Prod.snd) with
  | none => moms.map (fun p => (p.1, some 0))
  | some cut =>
    let winners := (moms.filter (fun p => decide (cut ≤ p.2))).map Prod.fst
    if winners.length = 0 then moms.map (fun p => (p.1, some 0))
    else moms.map (fun p =>
      (p.1, some (if p.1 ∈ winners then 1 / (winners.length : ℚ) else 0)))

/-- `compute_reversal_weights`: mirror image of momentum, selecting the
columns whose momentum is at or below the `bottom_quantile`-quantile. -/
def compute_reversal_weights (df : DF ℚ) (bottom_q : ℚ) : WSeries :=
  let moms := momSeries df
  match quantile bottom_q (moms.map Prod.snd) with
  | none => moms.map (fun p => (p.1, some 0))
  | some cut =>
    let losers := (moms.filter (fun p => decide (p.2 ≤ cut))).map Prod.fst
    if losers.length = 0 then moms.map (fun p => (p.1, some 0))
    else moms.map (fun p =>
      (p.1, some (if p.1 ∈ losers then 1 / (losers.length : ℚ) else 0)))

/-- `weights.reindex(columns)`: the stored value for a present label
(which may itself be NaN), NaN for an absent label. -/
def optLookup (w : WSeries) (c : String) : Option ℚ :=
  match List.lookup c w with
  | some v => v
  | none => none

/-- `weights.reindex(month_returns.columns).fillna(0)`. -/
def alignedWeights (w : WSeries) (cols : List String) : List ℚ :=
  cols.map (fun c => (optLookup w c).getD 0)

/-- One row of `DataFrame.dot`: `Σ cell_j * weight_j`, NaN if any cell in
the row is NaN (`dot` does not skip NaN). -/
def dotRow (vals : List (Option ℚ)) (ws : List ℚ) : Option ℚ :=
  (vals.zip ws).foldr
    (fun p acc =>
      match p.1, acc with
      | some v, some s => some (v * p.2 + s)
      | _, _ => none)
    (some 0)

/-- `apply_weights`: align the weights onto the frame's columns with
zero fill, then take the per-date dot product. -/
def apply_weights (df : DF ℚ) (w : WSeries) : WSeries :=
  let a := alignedWeights w df.cols
  df.rows.map (fun r => (r.1, dotRow r.2 a))

/-- One cell of `prices.pct_change(fill_method=None)`:
`(cur - prev) / prev` with NaN propagation; a zero previous price gives a
signed infinity (or NaN for 0/0), exactly as IEEE division does. -/
def pctCell (prev cur : Option ℚ) : Option FV :=
  match prev, cur with
  | some p, some c => fdiv (c - p) p
  | _, _ => none

/-- The rows of `prices.pct_change(fill_method=None)` after the first:
each row is computed cellwise against the previous row. -/
def pctRowsAux (prev : String × List (Option ℚ)) :
    List (String × List (Option ℚ)) → List (String × List (Option FV))
  | [] => []
  | r :: rest =>
    (r.1, (prev.2.zip r.2).map (fun pc => pctCell pc.1 pc.2)) :: pctRowsAux r rest

/-- All rows of `prices.pct_change(fill_method=None)`: the first row is
all NaN, the rest are cellwise quotients against the previous row. -/
def pctRows : List (String × List (Option ℚ)) → List (String × List (Option FV))
  | [] => []
  | r :: rest => (r.1, r.2.map (fun _ => none)) :: pctRowsAux r rest

/-- `compute_daily_returns`: `pct_change(fill_method=None)` followed by
`dropna(how='all')`, which keeps exactly the rows with at least one
non-NaN cell. -/
def compute_daily_returns (df : DF ℚ) : DF FV :=
  ⟨df.cols, (pctRows df.rows).filter (fun r => r.2.any Option.isSome)⟩

/-- `Series.cumprod` (skipna) of `1 + r`, starting from wealth `p`:
NaN entries stay NaN but do not reset the running product. -/
def cumprodSkip (p : ℚ) : List (Option ℚ) → List (Option ℚ)
  | [] => []
  | none :: xs => none :: cumprodSkip p xs
  | some r :: xs => some (p * (1 + r)) :: cumprodSkip (p * (1 + r)) xs

/-- `Series.cummax` (skipna): NaN entries stay NaN but do not reset the
running maximum (`none` as the state means no defined value seen yet). -/
def cummaxSkip (m : Option ℚ) : List (Option ℚ) → List (Option ℚ)
  | [] => []
  | none :: xs => none :: cummaxSkip m xs
  | some w :: xs =>
    let m2 := match m with
              | none => w
              | some m0 => max m0 w
    some m2 :: cummaxSkip (some m2) xs

/-- One cell of `(wealth - running_max) / running_max` (IEEE division). -/
def ddCell (w m : Option ℚ) : Option FV :=
  match w, m with
  | some a, some b => fdiv (a - b) b
  | _, _ => none

/-- The drawdown series of `evaluate_portfolio`. -/
def drawdownList (rs : List (Option ℚ)) : List (Option FV) :=
  let wealth := cumprodSkip 1 rs
  List.zipWith ddCell wealth (cummaxSkip none wealth)

/-- `Series.min` (skipna): NaN when no entry is defined. -/
def minSkipna (l : List (Option FV)) : Option FV :=
  match l.filterMap id with
  | [] => none
  | y :: ys => some (ys.foldl (fun a b => if FV.le a b then a else b) y)

/-- The record returned by `evaluate_portfolio` (its six metrics).
`none` fields are NaN (or Python `None` for the Calmar entry). -/
structure PerfReport where
  cumulativeReturn : ℚ
  annualizedReturn : Option ℚ
  annualizedVol : Option ℚ
  sharpe : Option ℚ
  maxDrawdown : Option FV
  calmar : Option ℚ
deriving DecidableEq

/-- `evaluate_portfolio` on the values of a daily portfolio return series
(never raises: pandas reductions on an empty series yield NaN, and both
guards — `if annualized_vol > 0`, `if max_dd < 0` — are False on NaN). -/
def evaluate_portfolio (sq : ℚ → ℚ) (freq : ℕ) (rs : List (Option ℚ)) : PerfReport :=
  let cumulative := prodOnePlus rs - 1
  let annRet := (meanSkip rs).map (fun m => (1 + m) ^ freq - 1)
  let annVol := (std sq rs).map (fun s => s * sq (freq : ℚ))
  let sharpeV : Option ℚ :=
    match annVol with
    | some v => if 0 < v then annRet.map (fun a => a / v) else some 0
    | none => some 0
  let maxDD := minSkipna (drawdownList rs)
  let calmarV : Option ℚ :=
    match maxDD with
    | some (.fin m) => if m < 0 then annRet.map (fun a => a / |m|) else none
    | some .ninf => annRet.map (fun _ => (0 : ℚ))
    | some .pinf => none
    | none => none
  ⟨cumulative, annRet, annVol, sharpeV, maxDD, calmarV⟩

/-- NaN-propagating sum of a row's cells (as `DataFrame.dot` would add them). -/
def optSum (cells : List (Option ℚ)) : Option ℚ :=
  cells.foldr
    (fun x acc =>
      match x, acc with
      | some v, some s => some (v + s)
      | _, _ => none)
    (some 0)

/-- Modelled from the spec (§4.4 / §8): the cross-sectional mean of one
day's asset returns — the plain mean over all the row's cells, undefined
if any cell is missing. Used only to compare `apply_weights` against the
spec's wording. -/
def crossMean (cells : List (Option ℚ)) : Option ℚ :=
  (optSum cells).map (fun s => s / (cells.length : ℚ))

/-- A concrete ten-asset, one-day period table with distinct momentum
values (each asset's momentum is its single daily return). -/
def mdf10 : DF ℚ :=
  ⟨["A0", "A1", "A2", "A3", "A4", "A5", "A6", "A7", "A8", "A9"],
   [("d1", [some 0, some (1/100), some (2/100), some (3/100), some (4/100),
            some (5/100), some (6/100), some (7/100), some (8/100), some (9/100)])]⟩

/-! ### Helper lemmas -/

theorem lookup_filter_mem {w : WSeries} {cols : List String} {c : String} (hc : c ∈ cols) :
    List.lookup c (w.filter (fun p => decide (p.1 ∈ cols))) = List.lookup c w := by
  induction w with
  | nil => rfl
  | cons kv w ih =>
    rcases kv with ⟨k, v⟩
    by_cases hk : k ∈ cols
    · rw [List.filter_cons_of_pos (by simpa using hk)]
      by_cases hck : (c == k) = true
      · simp [List.lookup, hck]
      · simp only [List.lookup, hck, ih]
    · have hck : (c == k) = false := by
        refine beq_eq_false_iff_ne.mpr (fun h => hk ?_)
        exact h ▸ hc
      rw [List.filter_cons_of_neg (by simpa using hk)]
      simp only [List.lookup, hck, ih]

theorem lookup_map_self {cols : List String} {c : String} (hc : c ∈ cols) (y : Option ℚ) :
    List.lookup c (cols.map (fun c2 => (c2, y))) = some y := by
  induction cols with
  | nil => cases hc
  | cons d cols ih =>
    by_cases hcd : (c == d) = true
    · simp [List.lookup, hcd]
    · have : c ∈ cols := by
        rcases List.mem_cons.mp hc with h | h
        · exact absurd (beq_iff_eq.mpr h) (by simpa using hcd)
        · exact h
      simp [List.lookup, hcd, ih this]

theorem lookup_isNone_of_no_key {w : WSeries} {c : String} (h : ∀ p ∈ w, p.1 ≠ c) :
    List.lookup c w = none := by
  induction w with
  | nil => rfl
  | cons kv w ih =>
    have hck : (c == kv.1) = false :=
      beq_eq_false_iff_ne.mpr (fun hh => (h kv (List.mem_cons_self kv w)) hh.symm)
    simp only [List.lookup, hck]
    exact ih (fun p hp => h p (List.mem_cons_of_mem kv hp))

theorem optSum_cons_some (v : ℚ) (xs : List (Option ℚ)) :
    optSum (some v :: xs) = (optSum xs).map (fun s => v + s) := by
  cases h : optSum xs <;> simp [optSum] at h ⊢ <;> rw [h]

theorem optSum_cons_none (xs : List (Option ℚ)) : optSum (none :: xs) = none := by
  simp [optSum]

theorem dotRow_const_mul (vals : List (Option ℚ)) (a : ℚ) :
    dotRow vals (List.replicate vals.length a) = (optSum vals).map (fun s => s * a) := by
  induction vals with
  | nil => simp [dotRow, optSum]
  | cons x xs ih =>
    cases x with
    | none => simp [dotRow, optSum, List.replicate]
    | some v =>
      rw [List.length_cons, List.replicate, optSum_cons_some]
      have hzip : (some v :: xs).zip (a :: List.replicate xs.length a) =
          (some v, a) :: xs.zip (List.replicate xs.length a) := rfl
      rw [dotRow, hzip, List.foldr_cons]
      have : (xs.zip (List.replicate xs.length a)).foldr
          (fun p acc =>
            match p.1, acc with
            | some v2, some s => some (v2 * p.2 + s)
            | _, _ => none) (some 0) = dotRow xs (List.replicate xs.length a) := rfl
      rw [this, ih]
      cases h : optSum xs with
      | none => simp
      | some s => simp [add_mul]

theorem dotRow_all_zero (vals : List (Option ℚ)) :
    dotRow vals (List.replicate vals.length 0) =
      if vals.all Option.isSome then some 0 else none := by
  rw [dotRow_const_mul]
  induction vals with
  | nil => simp [optSum]
  | cons x xs ih =>
    cases x with
    | none => simp [optSum_cons_none]
    | some v =>
      rw [optSum_cons_some]
      cases h : optSum xs with
      | none => rw [h] at ih; simpa using ih
      | some s => rw [h] at ih; simp at ih ⊢; simpa using ih

/-! ### C4 -/

/-- C4: `apply_weights` reindexes the weight vector onto the table's
columns: weights whose asset is not among the columns are discarded
(filtering them away changes nothing), a column with no entry in the
vector is aligned to weight 0, and the result is the per-day dot product
of the row's returns with the aligned weights; the function is total, so
no support/column mismatch can raise. -/
theorem apply_weights_alignment_spec :
    ∀ (df : DF ℚ) (w : WSeries),
      (apply_weights df (w.filter (fun p => decide (p.1 ∈ df.cols))) = apply_weights df w)
    ∧ (∀ c, List.lookup c w = none → (optLookup w c).getD 0 = 0)
    ∧ (apply_weights df w =
        df.rows.map (fun r => (r.1, dotRow r.2 (alignedWeights w df.cols)))) := by
  intro df w
  refine ⟨?_, ?_, rfl⟩
  · have ha : alignedWeights (w.filter (fun p => decide (p.1 ∈ df.cols))) df.cols =
        alignedWeights w df.cols := by
      refine List.map_congr_left (fun c hcm => ?_)
      rw [optLookup, optLookup, lookup_filter_mem hcm]
    rw [apply_weights, apply_weights, ha]
  · intro c hnone
    rw [optLookup, hnone]
    rfl

/-- Witness for C4 at a concrete frame and weight vector. -/
theorem apply_weights_alignment_spec_wit :
    (optLookup [("B", some (5 : ℚ))] "A").getD 0 = 0
    ∧ apply_weights ⟨["A"], [("d", [some 2])]⟩
        (List.filter (fun p => decide (p.1 ∈ ["A"])) [("B", some (5 : ℚ))]) =
      apply_weights ⟨["A"], [("d", [some 2])]⟩ [("B", some (5 : ℚ))] :=
  ⟨(apply_weights_alignment_spec ⟨["A"], [("d", [some 2])]⟩ [("B", some 5)]).2.1 "A" (by decide),
   (apply_weights_alignment_spec ⟨["A"], [("d", [some 2])]⟩ [("B", some 5)]).1⟩

/-! ### C10 -/

/-- C10 (amended): the series returned by `apply_weights` carries exactly
the input table's date index in order; when the weight vector's support is
disjoint from the columns, a date whose row is fully defined gets value 0 —
but a date with any missing cell gets NaN, not 0 (the NaN poisons the dot
product even under zero weight). -/
theorem apply_weights_index_amended :
    ∀ (df : DF ℚ) (w : WSeries),
      ((apply_weights df w).map Prod.fst = df.rows.map Prod.fst)
    ∧ ((∀ p ∈ w, p.1 ∉ df.cols) → (∀ r ∈ df.rows, r.2.length = df.cols.length) →
        apply_weights df w =
          df.rows.map (fun r => (r.1, if r.2.all Option.isSome then some 0 else none))) := by
  intro df w
  constructor
  · rw [apply_weights]
    simp
  · intro hdisj hwf
    have ha : alignedWeights w df.cols = List.replicate df.cols.length 0 := by
      rw [alignedWeights, ← List.map_const' df.cols (0 : ℚ)]
      refine List.map_congr_left (fun c hcm => ?_)
      have : List.lookup c w = none :=
        lookup_isNone_of_no_key (fun p hp he => hdisj p hp (he ▸ hcm))
      rw [optLookup, this]
      rfl
    rw [apply_weights, ha]
    refine List.map_congr_left (fun r hr => ?_)
    rw [← hwf r hr, dotRow_all_zero]

/-- C10 counterexample: with disjoint support and a missing cell the
day's value is NaN, not 0, refuting "the series is 0 on every date". -/
theorem apply_weights_missing_cell_cx :
    apply_weights ⟨["A"], [("d1", [none])]⟩ [("B", some 1)] = [("d1", none)]
    ∧ (none : Option ℚ) ≠ some 0 := by
  constructor
  · decide
  · decide

/-- Witness for C10 at a concrete frame with disjoint weights. -/
theorem apply_weights_index_amended_wit :
    apply_weights ⟨["A"], [("d1", [some (3 : ℚ)])]⟩ [("B", some 1)] =
      [("d1", some 0)] := by
  have h := (apply_weights_index_amended ⟨["A"], [("d1", [some (3 : ℚ)])]⟩
    [("B", some 1)]).2 (by decide) (by decide)
  rw [h]
  decide

/-! ### C9 -/

/-- C9: equal weighting assigns exactly `1/N` to each of the `N` columns,
and applying that vector to the same table gives, on every date, the
cross-sectional mean of the date's asset returns. -/
theorem equal_weight_cross_mean :
    ∀ (df : DF ℚ), df.cols ≠ [] → (∀ r ∈ df.rows, r.2.length = df.cols.length) →
      ∃ w, compute_equal_weights df = .ok w
        ∧ (∀ p ∈ w, p.2 = some (1 / (df.cols.length : ℚ)))
        ∧ apply_weights df w = df.rows.map (fun r => (r.1, crossMean r.2)) := by
  intro df hne hwf
  have hn : df.cols.length ≠ 0 := fun h => hne (List.length_eq_zero.mp h)
  refine ⟨df.cols.map (fun c => (c, some (1 / (df.cols.length : ℚ)))), ?_, ?_, ?_⟩
  · rw [compute_equal_weights]
    simp [hn]
  · intro p hp
    rcases List.mem_map.mp hp with ⟨c, _, rfl⟩
    rfl
  · have ha : alignedWeights
        (df.cols.map (fun c => (c, some (1 / (df.cols.length : ℚ))))) df.cols =
        List.replicate df.cols.length (1 / (df.cols.length : ℚ)) := by
      rw [alignedWeights, ← List.map_const' df.cols (1 / (df.cols.length : ℚ))]
      refine List.map_congr_left (fun c hcm => ?_)
      rw [optLookup, lookup_map_self hcm]
      rfl
    rw [apply_weights, ha]
    refine List.map_congr_left (fun r hr => ?_)
    rw [← hwf r hr, dotRow_const_mul, crossMean, hwf r hr]
    cases h : optSum r.2 with
    | none => rfl
    | some s =>
      simp only [Option.map_some']
      rw [mul_one_div]

/-- Witness for C9 at a concrete two-column frame. -/
theorem equal_weight_cross_mean_wit :
    ∃ w, compute_equal_weights ⟨["A", "B"], [("d", [some (1 : ℚ), some 3])]⟩ = .ok w
      ∧ (∀ p ∈ w, p.2 = some (1 / ((["A", "B"] : List String).length : ℚ)))
      ∧ apply_weights ⟨["A", "B"], [("d", [some (1 : ℚ), some 3])]⟩ w =
          [("d", [some (1 : ℚ), some 3])].map (fun r => (r.1, crossMean r.2)) :=
  equal_weight_cross_mean ⟨["A", "B"], [("d", [some 1, some 3])]⟩
    (by decide) (by decide)

/-! ### C7 -/

/-- C7 (amended): on a zero-column table only `compute_equal_weights`
fails — with Python's division-by-zero error, there being no
`InsufficientDataError` in the code — while the volatility-scaled,
momentum and reversal strategies return an empty weight vector without
raising; `compute_equal_weights` fails exactly on zero columns, and no
strategy fails when columns exist but no asset qualifies (the strategies
are total functions there). -/
theorem strategy_error_amended :
    ∀ (sq : ℚ → ℚ) (q : ℚ) (df : DF ℚ),
      ((∃ e, compute_equal_weights df = .error e) ↔ df.cols = [])
    ∧ (df.cols = [] →
        compute_momentum_weights df q = []
        ∧ compute_reversal_weights df q = []
        ∧ compute_vol_scaled_weights sq df = []) := by
  intro sq q df
  constructor
  · constructor
    · rintro ⟨e, he⟩
      by_contra hne
      have hn : df.cols.length ≠ 0 := fun h => hne (List.length_eq_zero.mp h)
      rw [compute_equal_weights] at he
      simp [hn] at he
    · intro h
      refine ⟨.zeroDivision, ?_⟩
      rw [compute_equal_weights]
      simp [h]
  · intro h
    have hm : momSeries df = [] := by
      rw [momSeries, h]
      rfl
    refine ⟨?_, ?_, ?_⟩
    · rw [compute_momentum_weights, hm]
      rfl
    · rw [compute_reversal_weights, hm]
      rfl
    · rw [compute_vol_scaled_weights, invVolSeries, volSeries, h]
      rfl

/-- C7 counterexample: `compute_momentum_weights` on a zero-column table
returns an empty weight vector — it does not fail at all, refuting
"every weighting strategy fails ... if its input table has zero columns"
(in the source, only `compute_equal_weights` raises there, and the raised
error is `ZeroDivisionError`, not the spec's `InsufficientDataError`,
which appears nowhere in the code). -/
theorem momentum_empty_no_error_cx :
    compute_momentum_weights (⟨[], []⟩ : DF ℚ) (1 / 5) = []
    ∧ compute_vol_scaled_weights id (⟨[], []⟩ : DF ℚ) = [] := by
  constructor
  · rfl
  · rfl

/-- Witness for C7 at a concrete empty and non-empty frame. -/
theorem strategy_error_amended_wit :
    compute_momentum_weights (⟨[], [("d", [])]⟩ : DF ℚ) (1 / 5) = []
    ∧ ((∃ e, compute_equal_weights (⟨["A"], [("d", [some 1])]⟩ : DF ℚ) = .error e)
        ↔ (⟨["A"], [("d", [some 1])]⟩ : DF ℚ).cols = []) :=
  ⟨((strategy_error_amended id (1 / 5) ⟨[], [("d", [])]⟩).2 rfl).1,
   (strategy_error_amended id (1 / 5) ⟨["A"], [("d", [some 1])]⟩).1⟩

/-! ### C8 -/

/-- C8 (amended): `evaluate_portfolio` never raises. On an empty series it
still returns a report — cumulative return 0, NaN annualized return and
volatility, Sharpe 0 (the NaN guard takes the `else 0` branch), NaN max
drawdown and no Calmar value; on any series with at least one defined
entry the annualized return is a defined number. -/
theorem evaluate_empty_amended :
    ∀ (sq : ℚ → ℚ) (freq : ℕ),
      (evaluate_portfolio sq freq [] = ⟨0, none, none, some 0, none, none⟩)
    ∧ (∀ rs : List (Option ℚ), (∃ x ∈ rs, x.isSome = true) →
        ∃ a, (evaluate_portfolio sq freq rs).annualizedReturn = some a) := by
  intro sq freq
  constructor
  · rw [evaluate_portfolio]
    simp [prodOnePlus, definedVals, meanSkip, std, sampleVar, minSkipna,
      drawdownList, cumprodSkip, cummaxSkip]
  · intro rs hex
    rcases hex with ⟨x, hx, hs⟩
    have hne : definedVals rs ≠ [] := by
      rcases x with _ | v
      · cases hs
      · intro h
        have hv : v ∈ definedVals rs := List.mem_filterMap.mpr ⟨some v, hx, rfl⟩
        rw [h] at hv
        cases hv
    have hproj : (evaluate_portfolio sq freq rs).annualizedReturn =
        (meanSkip rs).map (fun m => (1 + m) ^ freq - 1) := rfl
    rw [hproj, meanSkip]
    cases heq : definedVals rs with
    | nil => exact absurd heq hne
    | cons y ys => exact ⟨_, rfl⟩

/-- C8 counterexample: on a zero-entry series the evaluator does not fail
with any error — it returns a full report (with NaN metrics), refuting
"fails with InsufficientDataError whenever the series has zero entries"
(no error-raising code exists in `evaluate_portfolio` at all). -/
theorem evaluate_empty_no_error_cx :
    evaluate_portfolio id 252 [] =
      ⟨0, none, none, some 0, none, none⟩ := by
  rw [evaluate_portfolio]
  simp [prodOnePlus, definedVals, meanSkip, std, sampleVar, minSkipna,
    drawdownList, cumprodSkip, cummaxSkip]

/-- Witness for C8 at a concrete one-entry series. -/
theorem evaluate_empty_amended_wit :
    ∃ a, (evaluate_portfolio id 252 [some (0 : ℚ)]).annualizedReturn = some a :=
  (evaluate_empty_amended id 252).2 [some 0] ⟨some 0, List.mem_singleton.mpr rfl, rfl⟩

/-! ### C5 -/

theorem pctRowsAux_eq (prev : String × List (Option ℚ))
    (l : List (String × List (Option ℚ))) :
    pctRowsAux prev l =
      ((prev :: l).zip l).map
        (fun pr => (pr.2.1, (pr.1.2.zip pr.2.2).map (fun pc => pctCell pc.1 pc.2))) := by
  induction l generalizing prev with
  | nil => rfl
  | cons x xs ih => simp [pctRowsAux, List.zip, ih x]

/-- C5 (amended): each return cell is `cur/prev - 1` exactly when both
prices are defined and the previous price is nonzero; a missing price on
either side gives a missing cell, and `0/0` gives a missing cell — but a
zero previous price with a nonzero current price gives a signed infinity,
not a missing cell. The first date's row (all NaN) is dropped, any row
whose cells are all missing is dropped, and a row with at least one
defined cell is kept (possibly with partial missingness). -/
theorem pct_change_amended :
    (∀ p c : ℚ, p ≠ 0 → pctCell (some p) (some c) = some (.fin (c / p - 1)))
    ∧ (pctCell (some 0) (some 0) = none)
    ∧ (∀ c : ℚ, 0 < c → pctCell (some 0) (some c) = some .pinf)
    ∧ (∀ c : ℚ, c < 0 → pctCell (some 0) (some c) = some .ninf)
    ∧ (∀ x, pctCell none x = none)
    ∧ (∀ p, pctCell (some p) none = none)
    ∧ (∀ df : DF ℚ,
        (compute_daily_returns df).cols = df.cols
        ∧ (compute_daily_returns df).rows =
            ((df.rows.zip df.rows.tail).map
              (fun pr => (pr.2.1, (pr.1.2.zip pr.2.2).map
                (fun pc => pctCell pc.1 pc.2)))).filter
              (fun r => r.2.any Option.isSome)) := by
  refine ⟨?_, ?_, ?_, ?_, ?_, ?_, ?_⟩
  · intro p c hp
    rw [pctCell, fdiv, if_pos hp, sub_div, div_self hp]
  · rw [pctCell, fdiv]
    norm_num
  · intro c hc
    rw [pctCell, fdiv]
    simp [hc, sub_zero]
  · intro c hc
    rw [pctCell, fdiv]
    simp [sub_zero, not_lt_of_lt hc, hc]
  · intro x
    rfl
  · intro p
    rfl
  · intro df
    refine ⟨rfl, ?_⟩
    show ((pctRows df.rows).filter (fun r2 => r2.2.any Option.isSome)) = _
    cases hrows : df.rows with
    | nil => rfl
    | cons r rest =>
      have hhead : ((r.2.map (fun _ => (none : Option FV))).any Option.isSome) = false := by
        simp [List.any_map, Function.comp]
      rw [pctRows, List.filter_cons_of_neg (by simp [hhead]), pctRowsAux_eq]
      rfl

/-- C5 counterexample: a zero price followed by a positive price yields a
`+∞` return cell (a defined, kept value), refuting "otherwise leaves the
cell undefined" for the zero-previous-price case. -/
theorem pct_change_zero_price_cx :
    compute_daily_returns ⟨["A"], [("d1", [some 0]), ("d2", [some 1])]⟩ =
      ⟨["A"], [("d2", [some .pinf])]⟩ := by
  rw [compute_daily_returns]
  simp [pctRows, pctRowsAux, pctCell, fdiv]

/-- Witness for C5 at concrete prices. -/
theorem pct_change_amended_wit :
    (2 : ℚ) ≠ 0
    ∧ pctCell (some (2 : ℚ)) (some 3) = some (.fin (3 / 2 - 1))
    ∧ (compute_daily_returns ⟨["A"], [("d1", [some (2 : ℚ)]), ("d2", [some 3])]⟩).rows =
        (([(("d1" : String), [some (2 : ℚ)]), ("d2", [some 3])].zip
          [(("d2" : String), [some (3 : ℚ)])]).map
            (fun pr => (pr.2.1, (pr.1.2.zip pr.2.2).map
              (fun pc => pctCell pc.1 pc.2)))).filter
          (fun r => r.2.any Option.isSome) :=
  ⟨by norm_num,
   pct_change_amended.1 2 3 (by norm_num),
   ((pct_change_amended.2.2.2.2.2.2 ⟨["A"], [("d1", [some 2]), ("d2", [some 3])]⟩).2)⟩

/-! ### Volatility-scaled weights: shared lemmas -/

theorem sampleVar_nonneg {xs : List (Option ℚ)} {v : ℚ} (h : sampleVar xs = some v) :
    0 ≤ v := by
  rw [sampleVar] at h
  by_cases hlen : (definedVals xs).length < 2
  · simp [hlen] at h
  · simp only [hlen, if_false] at h
    have hv := Option.some.inj h
    rw [← hv]
    apply div_nonneg
    · refine List.sum_nonneg (fun x hx => ?_)
      rcases List.mem_map.mp hx with ⟨y, _, rfl⟩
      positivity
    · have h2 : 2 ≤ (definedVals xs).length := not_lt.mp hlen
      have h2q : (2 : ℚ) ≤ ((definedVals xs).length : ℚ) := by exact_mod_cast h2
      linarith

/-- The value carried at position `j` of `invVolSeries`. -/
def invVolVal (sq : ℚ → ℚ) (df : DF ℚ) (j : ℕ) : Option ℚ :=
  match std sq (df.colVals j) with
  | some x => if x = 0 then none else some (1 / x)
  | none => none

theorem invVolSeries_eq (sq : ℚ → ℚ) (df : DF ℚ) :
    invVolSeries sq df = df.cols.enum.map (fun jc => (jc.2, invVolVal sq df jc.1)) := by
  rw [invVolSeries, volSeries, List.map_map]
  rfl

theorem invVolSeries_length (sq : ℚ → ℚ) (df : DF ℚ) :
    (invVolSeries sq df).length = df.cols.length := by
  rw [invVolSeries_eq, List.length_map, List.enum_length]

theorem invVolSeries_getElem? (sq : ℚ → ℚ) (df : DF ℚ) (j : ℕ) :
    (invVolSeries sq df)[j]? =
      (df.cols[j]?).map (fun c => (c, invVolVal sq df j)) := by
  rw [invVolSeries_eq, List.getElem?_map, List.getElem?_enum]
  cases df.cols[j]? <;> rfl

/-- With a genuine square root, a defined inverse-volatility entry is the
reciprocal of the square root of a positive sample variance — positive. -/
theorem invVolVal_pos {sq : ℚ → ℚ} (hs : sqrtSpec sq) (df : DF ℚ) (j : ℕ) {x : ℚ}
    (hx : invVolVal sq df j = some x) : 0 < x := by
  rw [invVolVal] at hx
  cases hvar : sampleVar (df.colVals j) with
  | none => rw [std, hvar] at hx; cases hx
  | some v =>
    rw [std, hvar] at hx
    simp only [Option.map_some'] at hx
    by_cases hz : sq v = 0
    · rw [if_pos hz] at hx; cases hx
    · rw [if_neg hz] at hx
      have hveq := Option.some.inj hx
      have hv0 : 0 ≤ v := sampleVar_nonneg hvar
      have hvpos : 0 < v := by
        rcases lt_or_eq_of_le hv0 with h | h
        · exact h
        · exact absurd (h ▸ hs.1) hz
      have : 0 < sq v := hs.2 v hvpos
      rw [← hveq]
      positivity

/-- A zero (or undefined) sample variance gives an undefined (NaN)
inverse-volatility entry. -/
theorem invVolVal_none {sq : ℚ → ℚ} (hs0 : sq 0 = 0) (df : DF ℚ) (j : ℕ)
    (h : ∀ v, sampleVar (df.colVals j) = some v → v = 0) :
    invVolVal sq df j = none := by
  rw [invVolVal]
  cases hvar : sampleVar (df.colVals j) with
  | none =>
    rw [std, hvar]
    rfl
  | some v =>
    have hv := h v hvar
    rw [std, hvar]
    simp only [Option.map_some']
    rw [hv, hs0, if_pos rfl]

theorem filterMap_id_map_optmap (f : ℚ → ℚ) (l : List (Option ℚ)) :
    (l.map (Option.map f)).filterMap id = (l.filterMap id).map f := by
  induction l with
  | nil => rfl
  | cons x xs ih => cases x <;> simp [ih]

theorem sum_map_div (l : List ℚ) (s : ℚ) : (l.map (fun x => x / s)).sum = l.sum / s := by
  induction l with
  | nil => simp
  | cons x xs ih => simp [ih, add_div]

/-- The membership view of `invVolSeries`: every entry is
`(column j, invVolVal j)` for some in-range `j`. -/
theorem mem_invVolSeries {sq : ℚ → ℚ} {df : DF ℚ} {p : String × Option ℚ}
    (hp : p ∈ invVolSeries sq df) :
    ∃ j, j < df.cols.length ∧ p.2 = invVolVal sq df j := by
  rcases List.mem_iff_getElem.mp hp with ⟨j, hj, hjp⟩
  have hjc : j < df.cols.length := by rw [← invVolSeries_length sq df]; exact hj
  have hq : (invVolSeries sq df)[j]? = some p := by
    rw [List.getElem?_eq_getElem hj, hjp]
  rw [invVolSeries_getElem? sq df j, List.getElem?_eq_getElem hjc] at hq
  simp only [Option.map_some'] at hq
  refine ⟨j, hjc, ?_⟩
  rw [← Option.some.inj hq]

/-- The defined entries of `invVolSeries` are exactly the `invVolVal`s
that are defined. -/
theorem mem_invVol_defined {sq : ℚ → ℚ} {df : DF ℚ} {x : ℚ}
    (hx : x ∈ ((invVolSeries sq df).map Prod.snd).filterMap id) :
    ∃ j, j < df.cols.length ∧ invVolVal sq df j = some x := by
  rcases List.mem_filterMap.mp hx with ⟨o, ho, hox⟩
  rcases List.mem_map.mp ho with ⟨p, hp, hpo⟩
  rcases mem_invVolSeries hp with ⟨j, hjc, hval⟩
  refine ⟨j, hjc, ?_⟩
  rw [← hval, hpo]
  cases o with
  | none => cases hox
  | some y => cases hox; rfl

theorem vol_weights_wsum_one {sq : ℚ → ℚ} (hs : sqrtSpec sq) (df : DF ℚ)
    (hex : ∃ j v, j < df.cols.length ∧ sampleVar (df.colVals j) = some v ∧ v ≠ 0) :
    wsum (compute_vol_scaled_weights sq df) = 1 := by
  set dv := ((invVolSeries sq df).map Prod.snd).filterMap id with hdv
  have hpos : ∀ x ∈ dv, 0 < x := by
    intro x hx
    rcases mem_invVol_defined hx with ⟨j, _, hjv⟩
    exact invVolVal_pos hs df j hjv
  have hne : dv ≠ [] := by
    rcases hex with ⟨j, v, hj, hvar, hv0⟩
    have hventry : invVolVal sq df j = some (1 / sq v) := by
      rw [invVolVal, std, hvar]
      simp only [Option.map_some']
      have hvpos : 0 < v := by
        rcases lt_or_eq_of_le (sampleVar_nonneg hvar) with h | h
        · exact h
        · exact absurd h.symm hv0
      rw [if_neg (ne_of_gt (hs.2 v hvpos))]
    have hjlen : j < (invVolSeries sq df).length := by
      rw [invVolSeries_length]; exact hj
    have hmemSeries : (df.cols.get ⟨j, hj⟩, invVolVal sq df j) ∈ invVolSeries sq df := by
      have hq : (invVolSeries sq df)[j]? =
          some (df.cols.get ⟨j, hj⟩, invVolVal sq df j) := by
        rw [invVolSeries_getElem? sq df j, List.getElem?_eq_getElem hj]
        rfl
      exact List.getElem?_mem hq
    have hmem : (1 / sq v) ∈ dv := by
      refine List.mem_filterMap.mpr ⟨some (1 / sq v), ?_, rfl⟩
      exact List.mem_map.mpr
        ⟨(df.cols.get ⟨j, hj⟩, invVolVal sq df j), hmemSeries, by rw [hventry]⟩
    intro h
    rw [h] at hmem
    cases hmem
  have hspos : 0 < dv.sum := List.sum_pos dv hpos hne
  rw [wsum]
  have hshow : (compute_vol_scaled_weights sq df).map Prod.snd =
      ((invVolSeries sq df).map Prod.snd).map (Option.map (fun v => v / dv.sum)) := by
    show ((invVolSeries sq df).map
      (fun p => (p.1, p.2.map (fun v => v / dv.sum)))).map Prod.snd = _
    rw [List.map_map, List.map_map]
    rfl
  rw [hshow, filterMap_id_map_optmap, ← hdv, sum_map_div]
  exact div_self (ne_of_gt hspos)

theorem vol_weights_all_none {sq : ℚ → ℚ} (hs0 : sq 0 = 0) (df : DF ℚ)
    (hall : ∀ j, j < df.cols.length → ∀ v, sampleVar (df.colVals j) = some v → v = 0) :
    ∀ p ∈ compute_vol_scaled_weights sq df, p.2 = none := by
  intro p hp
  have hp2 : p ∈ (invVolSeries sq df).map
      (fun p0 => (p0.1, p0.2.map (fun v =>
        v / (((invVolSeries sq df).map Prod.snd).filterMap id).sum))) := hp
  rcases List.mem_map.mp hp2 with ⟨p0, hp0, hpe⟩
  rcases mem_invVolSeries hp0 with ⟨j, hjc, hval⟩
  have hnone : invVolVal sq df j = none := invVolVal_none hs0 df j (hall j hjc)
  rw [← hpe]
  simp only
  rw [hval, hnone]
  rfl

/-! ### C2 -/

/-- C2 (amended): an asset whose previous-period return series has zero
sample variance gets an **undefined (NaN)** weight from
`compute_vol_scaled_weights` — not the weight 0 the claim states (the NaN
only becomes 0 later, in `apply_weights`' `fillna(0)`); such an asset is
excluded from the inverse-volatility denominator (its reciprocal entry is
NaN, which the skipna sum ignores), no asset ever receives an infinite
weight, and whenever at least one asset has positive variance the defined
weights renormalize to sum to exactly 1. -/
theorem vol_zero_variance_amended :
    ∀ (sq : ℚ → ℚ), sqrtSpec sq → ∀ (df : DF ℚ) (j : ℕ), j < df.cols.length →
      sampleVar (df.colVals j) = some 0 →
      ((invVolSeries sq df).getD j ("", some 0) = (df.cols.getD j "", none)
      ∧ (compute_vol_scaled_weights sq df).getD j ("", some 0) = (df.cols.getD j "", none)
      ∧ ((∃ j2 v, j2 < df.cols.length ∧ sampleVar (df.colVals j2) = some v ∧ v ≠ 0) →
          wsum (compute_vol_scaled_weights sq df) = 1)) := by
  intro sq hs df j hj hvar
  have hnone : invVolVal sq df j = none :=
    invVolVal_none hs.1 df j (fun v hv => by rw [hvar] at hv; exact (Option.some.inj hv).symm)
  refine ⟨?_, ?_, fun hex => vol_weights_wsum_one hs df hex⟩
  · rw [List.getD_eq_getElem?_getD, invVolSeries_getElem? sq df j,
      List.getElem?_eq_getElem hj, List.getD_eq_getElem?_getD,
      List.getElem?_eq_getElem hj, hnone]
    rfl
  · have hq : (compute_vol_scaled_weights sq df)[j]? =
        ((invVolSeries sq df)[j]?).map
          (fun p => (p.1, p.2.map (fun v =>
            v / (((invVolSeries sq df).map Prod.snd).filterMap id).sum))) := by
      show (((invVolSeries sq df).map (fun p => (p.1, p.2.map (fun v =>
        v / (((invVolSeries sq df).map Prod.snd).filterMap id).sum)))))[j]? = _
      rw [List.getElem?_map]
    rw [List.getD_eq_getElem?_getD, hq, invVolSeries_getElem? sq df j,
      List.getElem?_eq_getElem hj, List.getD_eq_getElem?_getD,
      List.getElem?_eq_getElem hj]
    simp only [Option.map_some']
    rw [hnone]
    rfl

/-- C2 counterexample: asset A has two equal returns (zero variance) and
asset B a positive-variance series; A's weight comes back NaN, not the 0
the claim states, while B takes the whole renormalized weight. -/
theorem vol_zero_variance_nan_cx :
    compute_vol_scaled_weights id
        ⟨["A", "B"], [("d1", [some 0, some 0]), ("d2", [some 0, some (1/2)])]⟩ =
      [("A", none), ("B", some 1)]
    ∧ (none : Option ℚ) ≠ some 0 := by
  constructor
  · simp [compute_vol_scaled_weights, invVolSeries, volSeries, std, sampleVar,
      DF.colVals, List.enum, definedVals, listMean, List.filterMap]
    norm_num
  · decide

/-- Witness for C2 at the same concrete frame. -/
theorem vol_zero_variance_amended_wit :
    (invVolSeries id
        ⟨["A", "B"], [("d1", [some 0, some 0]), ("d2", [some 0, some (1/2)])]⟩).getD 0
        ("", some 0) =
      ((["A", "B"] : List String).getD 0 "", none)
    ∧ wsum (compute_vol_scaled_weights id
        ⟨["A", "B"], [("d1", [some 0, some 0]), ("d2", [some 0, some (1/2)])]⟩) = 1 := by
  have hvarA : sampleVar ((⟨["A", "B"],
      [("d1", [some 0, some 0]), ("d2", [some 0, some (1/2)])]⟩ : DF ℚ).colVals 0) =
      some 0 := by
    simp [sampleVar, DF.colVals, definedVals, listMean]
  have hvarB : sampleVar ((⟨["A", "B"],
      [("d1", [some 0, some 0]), ("d2", [some 0, some (1/2)])]⟩ : DF ℚ).colVals 1) =
      some (1/8) := by
    simp [sampleVar, DF.colVals, definedVals, listMean]
    norm_num
  have h := vol_zero_variance_amended id ⟨rfl, fun x hx => hx⟩
    ⟨["A", "B"], [("d1", [some 0, some 0]), ("d2", [some 0, some (1/2)])]⟩ 0
    (by norm_num) hvarA
  exact ⟨h.1, h.2.2 ⟨1, 1/8, by norm_num, hvarB, by norm_num⟩⟩

/-! ### Quantile lemmas -/

theorem quantile_isSome {q : ℚ} {xs : List ℚ} (h : xs ≠ []) :
    ∃ c, quantile q xs = some c := by
  rw [quantile]
  rw [if_neg (by simpa using h)]
  exact ⟨_, rfl⟩

/-- The linearly interpolated `q`-quantile of a non-empty list, `0 ≤ q ≤ 1`,
lies between some member below it and some member above it. -/
theorem quantile_between {q : ℚ} {xs : List ℚ} {c : ℚ} (h0 : 0 ≤ q) (h1 : q ≤ 1)
    (hne : xs ≠ []) (hc : quantile q xs = some c) :
    (∃ x ∈ xs, c ≤ x) ∧ (∃ y ∈ xs, y ≤ c) := by
  rw [quantile, if_neg (by simpa using hne)] at hc
  set s := List.insertionSort (· ≤ ·) xs with hsdef
  have hperm : s.Perm xs := List.perm_insertionSort _ xs
  have hsorted : s.Sorted (· ≤ ·) := List.sorted_insertionSort _ xs
  have hslen : s.length = xs.length := hperm.length_eq
  have hn : 1 ≤ s.length := by
    rw [hslen]
    exact List.length_pos.mpr hne
  set h := q * ((s.length : ℚ) - 1) with hhdef
  have hn1 : (0 : ℚ) ≤ (s.length : ℚ) - 1 := by
    have : (1 : ℚ) ≤ (s.length : ℚ) := by exact_mod_cast hn
    linarith
  have hh0 : 0 ≤ h := mul_nonneg h0 hn1
  have hhle : h ≤ (s.length : ℚ) - 1 := by
    calc h = q * ((s.length : ℚ) - 1) := rfl
    _ ≤ 1 * ((s.length : ℚ) - 1) := by
        exact mul_le_mul_of_nonneg_right h1 hn1
    _ = (s.length : ℚ) - 1 := one_mul _
  have hfl0 : 0 ≤ ⌊h⌋ := Int.floor_nonneg.mpr hh0
  set i := (⌊h⌋).toNat with hidef
  have hti : (i : ℤ) = ⌊h⌋ := Int.toNat_of_nonneg hfl0
  have hiq : (i : ℚ) ≤ h := by
    have hfle := Int.floor_le h
    rw [← hti] at hfle
    exact_mod_cast hfle
  have hile : (i : ℚ) ≤ (s.length : ℚ) - 1 := le_trans hiq hhle
  have hilt : i < s.length := by
    have h2 : ((i : ℚ) + 1) ≤ (s.length : ℚ) := by linarith
    have h3 : (i + 1 : ℕ) ≤ s.length := by exact_mod_cast h2
    omega
  set g := h - (⌊h⌋ : ℚ) with hgdef
  have hg0 : 0 ≤ g := by
    rw [hgdef]
    linarith [Int.floor_le h]
  have hg1 : g < 1 := by
    rw [hgdef]
    linarith [Int.lt_floor_add_one h]
  have hmemi : s.getD i 0 ∈ xs := by
    rw [List.getD_eq_getElem _ _ hilt]
    exact hperm.mem_iff.mp (s.getElem_mem hilt)
  have hcval : c = s.getD i 0 + g * (s.getD (i + 1) (s.getD i 0) - s.getD i 0) := by
    have := Option.some.inj hc
    rw [← this]
  by_cases hsucc : i + 1 < s.length
  · have hab : s.getD i 0 ≤ s.getD (i + 1) (s.getD i 0) := by
      rw [List.getD_eq_getElem _ _ hilt, List.getD_eq_getElem _ _ hsucc]
      exact List.pairwise_iff_getElem.mp hsorted i (i + 1) hilt hsucc (by omega)
    have hmemi1 : s.getD (i + 1) (s.getD i 0) ∈ xs := by
      rw [List.getD_eq_getElem _ _ hsucc]
      exact hperm.mem_iff.mp (s.getElem_mem hsucc)
    refine ⟨⟨s.getD (i + 1) (s.getD i 0), hmemi1, ?_⟩, ⟨s.getD i 0, hmemi, ?_⟩⟩
    · rw [hcval]
      nlinarith [mul_nonneg (by linarith : (0:ℚ) ≤ 1 - g)
        (by linarith : (0:ℚ) ≤ s.getD (i + 1) (s.getD i 0) - s.getD i 0)]
    · rw [hcval]
      nlinarith [mul_nonneg hg0
        (by linarith : (0:ℚ) ≤ s.getD (i + 1) (s.getD i 0) - s.getD i 0)]
  · have hieq : (i : ℚ) = (s.length : ℚ) - 1 := by
      have hn2 : i + 1 = s.length := by omega
      rw [← hn2]
      push_cast
      ring
    have hhi : h ≤ (i : ℚ) := by rw [hieq]; exact hhle
    have hh : h = (i : ℚ) := le_antisymm hhi hiq
    have hgz : g = 0 := by
      rw [hgdef, hh, Int.floor_natCast]
      push_cast
      ring
    have hcv : c = s.getD i 0 := by
      rw [hcval, hgz]
      ring
    exact ⟨⟨s.getD i 0, hmemi, le_of_eq hcv⟩, ⟨s.getD i 0, hmemi, ge_of_eq hcv⟩⟩

/-! ### Momentum / reversal lemmas -/

theorem momSeries_map_fst (df : DF ℚ) : (momSeries df).map Prod.fst = df.cols := by
  rw [momSeries, List.map_map]
  have hcomp : (Prod.fst ∘ fun jc : ℕ × String =>
      (jc.2, prodOnePlus (df.colVals jc.1) - 1)) = Prod.snd := rfl
  rw [hcomp, List.enum_map_snd]

theorem momSeries_ne_nil {df : DF ℚ} (h : df.cols ≠ []) : momSeries df ≠ [] := by
  intro hnil
  apply h
  have := congrArg (List.map Prod.fst) hnil
  rw [momSeries_map_fst] at this
  simpa using this

theorem eq_of_fst_eq_of_nodup {l : List (String × ℚ)} (hnd : (l.map Prod.fst).Nodup)
    {p p2 : String × ℚ} (hp : p ∈ l) (hp2 : p2 ∈ l) (h : p.1 = p2.1) : p = p2 := by
  induction l with
  | nil => cases hp
  | cons a l ih =>
    rw [List.map_cons, List.nodup_cons] at hnd
    rcases List.mem_cons.mp hp with h1 | h1 <;> rcases List.mem_cons.mp hp2 with h2 | h2
    · rw [h1, h2]
    · exfalso
      apply hnd.1
      rw [← h1, h]
      exact List.mem_map.mpr ⟨p2, h2, rfl⟩
    · exfalso
      apply hnd.1
      rw [← h2, ← h]
      exact List.mem_map.mpr ⟨p, h1, rfl⟩
    · exact ih hnd.2 h1 h2

theorem mem_sel_iff {l : List (String × ℚ)} (hnd : (l.map Prod.fst).Nodup)
    {p : String × ℚ} (hp : p ∈ l) (f : String × ℚ → Bool) :
    (p.1 ∈ (l.filter f).map Prod.fst) ↔ f p = true := by
  constructor
  · intro hmem
    rcases List.mem_map.mp hmem with ⟨p2, hp2, hfst⟩
    have hp2l : p2 ∈ l := List.mem_of_mem_filter hp2
    have : p = p2 := eq_of_fst_eq_of_nodup hnd hp hp2l hfst.symm
    rw [this]
    exact List.of_mem_filter hp2
  · intro hf
    exact List.mem_map.mpr ⟨p, List.mem_filter.mpr ⟨hp, hf⟩, rfl⟩

theorem filterMap_id_map_some (l : List (String × ℚ)) (f : String × ℚ → ℚ) :
    ((l.map (fun p => (p.1, some (f p)))).map Prod.snd).filterMap id = l.map f := by
  induction l with
  | nil => rfl
  | cons x xs ih =>
    have hcons : ((x :: xs).map (fun p => (p.1, some (f p)))).map Prod.snd =
        some (f x) :: (xs.map (fun p => (p.1, some (f p)))).map Prod.snd := rfl
    rw [hcons, List.filterMap_cons_some (rfl : id (some (f x)) = some (f x)), ih,
      List.map_cons]

theorem wsum_map_some (l : List (String × ℚ)) (f : String × ℚ → ℚ) :
    wsum (l.map (fun p => (p.1, some (f p)))) = (l.map f).sum := by
  rw [wsum, filterMap_id_map_some]

theorem sum_map_ite (l : List (String × ℚ)) (f : String × ℚ → Bool) (a : ℚ) :
    (l.map (fun p => if f p then a else 0)).sum = (l.countP f : ℚ) * a := by
  induction l with
  | nil => simp
  | cons x xs ih =>
    cases hfx : f x
    · simp [List.countP_cons, hfx, ih]
    · simp only [List.map_cons, List.sum_cons, List.countP_cons, hfx, if_pos, if_true,
        cond_true, ih]
      push_cast
      ring

theorem momentum_weights_eq (df : DF ℚ) (q : ℚ) {cut : ℚ}
    (hcut : quantile (1 - q) ((momSeries df).map Prod.snd) = some cut)
    (hk : ((momSeries df).filter (fun p => decide (cut ≤ p.2))).length ≠ 0) :
    compute_momentum_weights df q =
      (momSeries df).map (fun p => (p.1, some (if p.1 ∈ ((momSeries df).filter
          (fun p2 => decide (cut ≤ p2.2))).map Prod.fst then
        1 / ((((momSeries df).filter
          (fun p2 => decide (cut ≤ p2.2))).map Prod.fst).length : ℚ)
        else 0))) := by
  rw [compute_momentum_weights]
  simp only [hcut]
  rw [if_neg (by simpa using hk)]

theorem reversal_weights_eq (df : DF ℚ) (q : ℚ) {cut : ℚ}
    (hcut : quantile q ((momSeries df).map Prod.snd) = some cut)
    (hk : ((momSeries df).filter (fun p => decide (p.2 ≤ cut))).length ≠ 0) :
    compute_reversal_weights df q =
      (momSeries df).map (fun p => (p.1, some (if p.1 ∈ ((momSeries df).filter
          (fun p2 => decide (p2.2 ≤ cut))).map Prod.fst then
        1 / ((((momSeries df).filter
          (fun p2 => decide (p2.2 ≤ cut))).map Prod.fst).length : ℚ)
        else 0))) := by
  rw [compute_reversal_weights]
  simp only [hcut]
  rw [if_neg (by simpa using hk)]

/-- The weight sum of an equal-split over the selected entries is 1. -/
theorem sel_weights_sum_one {l : List (String × ℚ)} (hnd : (l.map Prod.fst).Nodup)
    (f : String × ℚ → Bool) (hk : l.countP f ≠ 0) :
    wsum (l.map (fun p => (p.1, some (if p.1 ∈ (l.filter f).map Prod.fst then
      1 / (((l.filter f).map Prod.fst).length : ℚ) else 0)))) = 1 := by
  rw [wsum_map_some]
  have hcong : l.map (fun p => if p.1 ∈ (l.filter f).map Prod.fst then
      1 / (((l.filter f).map Prod.fst).length : ℚ) else 0) =
      l.map (fun p => if f p then 1 / ((l.countP f : ℕ) : ℚ) else 0) := by
    refine List.map_congr_left (fun p hp => ?_)
    rw [List.length_map, ← List.countP_eq_length_filter]
    exact if_congr (mem_sel_iff hnd hp f) rfl rfl
  rw [hcong, sum_map_ite]
  have hkq : ((l.countP f : ℕ) : ℚ) ≠ 0 := by exact_mod_cast hk
  field_simp

theorem momentum_wsum_one (df : DF ℚ) (q : ℚ) (h0 : 0 ≤ q) (h1 : q ≤ 1)
    (hne : df.cols ≠ []) (hnd : df.cols.Nodup) :
    wsum (compute_momentum_weights df q) = 1 := by
  have hndm : ((momSeries df).map Prod.fst).Nodup := by
    rw [momSeries_map_fst]
    exact hnd
  have hvne : (momSeries df).map Prod.snd ≠ [] := by
    intro h
    exact momSeries_ne_nil hne (by simpa using h)
  rcases quantile_isSome (q := 1 - q) hvne with ⟨cut, hcut⟩
  rcases (quantile_between (by linarith) (by linarith) hvne hcut).1 with ⟨x, hx, hcx⟩
  rcases List.mem_map.mp hx with ⟨p, hp, hpx⟩
  have hk : (momSeries df).countP (fun p2 => decide (cut ≤ p2.2)) ≠ 0 := by
    have : 0 < (momSeries df).countP (fun p2 => decide (cut ≤ p2.2)) :=
      List.countP_pos_iff.mpr ⟨p, hp, by simpa [hpx] using hcx⟩
    omega
  have hklen : ((momSeries df).filter (fun p2 => decide (cut ≤ p2.2))).length ≠ 0 := by
    rw [← List.countP_eq_length_filter]
    exact hk
  rw [momentum_weights_eq df q hcut hklen]
  exact sel_weights_sum_one hndm (fun p2 => decide (cut ≤ p2.2)) hk

theorem reversal_wsum_one (df : DF ℚ) (q : ℚ) (h0 : 0 ≤ q) (h1 : q ≤ 1)
    (hne : df.cols ≠ []) (hnd : df.cols.Nodup) :
    wsum (compute_reversal_weights df q) = 1 := by
  have hndm : ((momSeries df).map Prod.fst).Nodup := by
    rw [momSeries_map_fst]
    exact hnd
  have hvne : (momSeries df).map Prod.snd ≠ [] := by
    intro h
    exact momSeries_ne_nil hne (by simpa using h)
  rcases quantile_isSome (q := q) hvne with ⟨cut, hcut⟩
  rcases (quantile_between h0 h1 hvne hcut).2 with ⟨x, hx, hcx⟩
  rcases List.mem_map.mp hx with ⟨p, hp, hpx⟩
  have hk : (momSeries df).countP (fun p2 => decide (p2.2 ≤ cut)) ≠ 0 := by
    have : 0 < (momSeries df).countP (fun p2 => decide (p2.2 ≤ cut)) :=
      List.countP_pos_iff.mpr ⟨p, hp, by simpa [hpx] using hcx⟩
    omega
  have hklen : ((momSeries df).filter (fun p2 => decide (p2.2 ≤ cut))).length ≠ 0 := by
    rw [← List.countP_eq_length_filter]
    exact hk
  rw [reversal_weights_eq df q hcut hklen]
  exact sel_weights_sum_one hndm (fun p2 => decide (p2.2 ≤ cut)) hk

/-! ### C1 -/

theorem filterMap_id_map_const_some (l : List String) (a : ℚ) :
    (l.map (fun _ => some a)).filterMap id = l.map (fun _ => a) := by
  induction l with
  | nil => rfl
  | cons x xs ih =>
    rw [List.map_cons, List.map_cons,
      List.filterMap_cons_some (rfl : id (some a) = some a), ih]

theorem equal_wsum_one {df : DF ℚ} (hne : df.cols ≠ []) :
    wsum (df.cols.map (fun c => (c, some (1 / (df.cols.length : ℚ))))) = 1 := by
  rw [wsum, List.map_map]
  have h1 : (Prod.snd ∘ fun c : String => (c, some (1 / (df.cols.length : ℚ)))) =
      fun _ => some (1 / (df.cols.length : ℚ)) := rfl
  rw [h1, filterMap_id_map_const_some, List.map_const', List.sum_replicate, nsmul_eq_mul]
  have hn : (df.cols.length : ℚ) ≠ 0 := by
    have hpos := List.length_pos.mpr hne
    exact_mod_cast Nat.pos_iff_ne_zero.mp hpos
  field_simp

/-- C1 (amended): whenever the table has at least one (distinct-labelled)
column, every strategy's weight vector sums to 1 over its defined
entries — EqualWeight always, Momentum and Reversal always (some asset is
always at or beyond the interpolated quantile cutoff), VolatilityScaled
whenever at least one asset has positive sample variance. When no asset
qualifies (possible only for VolatilityScaled), the result is an
all-undefined (NaN) vector over the column set, **not** the all-zero
vector the claim states. -/
theorem weights_sum_amended :
    ∀ (sq : ℚ → ℚ), sqrtSpec sq → ∀ (df : DF ℚ), df.cols ≠ [] → df.cols.Nodup →
      ∀ q : ℚ, 0 ≤ q → q ≤ 1 →
      (∃ w, compute_equal_weights df = .ok w ∧ wsum w = 1)
    ∧ wsum (compute_momentum_weights df q) = 1
    ∧ wsum (compute_reversal_weights df q) = 1
    ∧ ((∃ j v, j < df.cols.length ∧ sampleVar (df.colVals j) = some v ∧ v ≠ 0) →
        wsum (compute_vol_scaled_weights sq df) = 1)
    ∧ ((∀ j, j < df.cols.length → ∀ v, sampleVar (df.colVals j) = some v → v = 0) →
        ∀ p ∈ compute_vol_scaled_weights sq df, p.2 = none) := by
  intro sq hs df hne hnd q h0 h1
  refine ⟨?_, momentum_wsum_one df q h0 h1 hne hnd, reversal_wsum_one df q h0 h1 hne hnd,
    fun hex => vol_weights_wsum_one hs df hex,
    fun hall => vol_weights_all_none hs.1 df hall⟩
  have hn : df.cols.length ≠ 0 := fun h => hne (List.length_eq_zero.mp h)
  refine ⟨df.cols.map (fun c => (c, some (1 / (df.cols.length : ℚ)))), ?_, equal_wsum_one hne⟩
  rw [compute_equal_weights]
  simp [hn]

/-- C1 counterexample: VolatilityScaled on a one-column table whose single
return leaves the volatility undefined returns the all-NaN vector, not the
all-zero vector over the column set that the claim requires. -/
theorem vol_weights_all_nan_cx :
    compute_vol_scaled_weights id ⟨["A"], [("d1", [some 0])]⟩ = [("A", none)]
    ∧ [(("A" : String), (none : Option ℚ))] ≠ [("A", some 0)] := by
  constructor
  · simp [compute_vol_scaled_weights, invVolSeries, volSeries, std, sampleVar,
      DF.colVals, List.enum, definedVals]
  · simp

/-- Witness for C1 at a concrete two-column frame. -/
theorem weights_sum_amended_wit :
    wsum (compute_momentum_weights
        ⟨["A", "B"], [("d1", [some 0, some 0]), ("d2", [some 0, some (1/2)])]⟩ (1/5)) = 1
    ∧ wsum (compute_reversal_weights
        ⟨["A", "B"], [("d1", [some 0, some 0]), ("d2", [some 0, some (1/2)])]⟩ (1/5)) = 1
    ∧ wsum (compute_vol_scaled_weights id
        ⟨["A", "B"], [("d1", [some 0, some 0]), ("d2", [some 0, some (1/2)])]⟩) = 1
    ∧ (∃ w, compute_equal_weights
        (⟨["A", "B"], [("d1", [some 0, some 0]), ("d2", [some 0, some (1/2)])]⟩ : DF ℚ) =
          .ok w ∧ wsum w = 1) := by
  have hvarB : sampleVar ((⟨["A", "B"],
      [("d1", [some 0, some 0]), ("d2", [some 0, some (1/2)])]⟩ : DF ℚ).colVals 1) =
      some (1/8) := by
    simp [sampleVar, DF.colVals, definedVals, listMean]
    norm_num
  have h := weights_sum_amended id ⟨rfl, fun x hx => hx⟩
    ⟨["A", "B"], [("d1", [some 0, some 0]), ("d2", [some 0, some (1/2)])]⟩
    (by decide) (by decide) (1/5) (by norm_num) (by norm_num)
  exact ⟨h.2.1, h.2.2.1, h.2.2.2.1 ⟨1, 1/8, by norm_num, hvarB, by norm_num⟩, h.1⟩

/-! ### C3: ten distinct assets, top / bottom quintile -/

theorem exists_len10 (l : List ℚ) (h : l.length = 10) :
    ∃ a0 a1 a2 a3 a4 a5 a6 a7 a8 a9 : ℚ,
      l = [a0, a1, a2, a3, a4, a5, a6, a7, a8, a9] := by
  rcases l with _ | ⟨a0, l⟩
  · simp at h
  rcases l with _ | ⟨a1, l⟩
  · simp at h
  rcases l with _ | ⟨a2, l⟩
  · simp at h
  rcases l with _ | ⟨a3, l⟩
  · simp at h
  rcases l with _ | ⟨a4, l⟩
  · simp at h
  rcases l with _ | ⟨a5, l⟩
  · simp at h
  rcases l with _ | ⟨a6, l⟩
  · simp at h
  rcases l with _ | ⟨a7, l⟩
  · simp at h
  rcases l with _ | ⟨a8, l⟩
  · simp at h
  rcases l with _ | ⟨a9, l⟩
  · simp at h
  rcases l with _ | ⟨a10, l⟩
  · exact ⟨a0, a1, a2, a3, a4, a5, a6, a7, a8, a9, rfl⟩
  · exfalso
    simp at h

/-- On ten distinct values, the inclusive selection at the linearly
interpolated 0.8-quantile catches exactly the top two. -/
theorem countP_ge_quantile_ten {xs : List ℚ} {cut : ℚ} (hlen : xs.length = 10)
    (hnd : xs.Nodup) (hcut : quantile (4/5) xs = some cut) :
    xs.countP (fun x => decide (cut ≤ x)) = 2 := by
  have hxne : xs ≠ [] := by
    intro h
    rw [h] at hlen
    cases hlen
  have hperm : (List.insertionSort (· ≤ ·) xs).Perm xs := List.perm_insertionSort _ xs
  have hsorted : (List.insertionSort (· ≤ ·) xs).Sorted (· ≤ ·) :=
    List.sorted_insertionSort _ xs
  have hslen : (List.insertionSort (· ≤ ·) xs).length = 10 := by
    rw [hperm.length_eq, hlen]
  have hsnd : (List.insertionSort (· ≤ ·) xs).Nodup := hperm.nodup_iff.mpr hnd
  rcases exists_len10 _ hslen with ⟨a0, a1, a2, a3, a4, a5, a6, a7, a8, a9, heq⟩
  rw [quantile, if_neg (by simpa using hxne), heq] at hcut
  simp only [List.length_cons, List.length_nil] at hcut
  norm_num at hcut
  norm_num [show Int.toNat 7 = 7 from rfl] at hcut
  rw [heq] at hsorted hsnd
  simp only [List.sorted_cons, List.mem_cons, List.mem_singleton, List.not_mem_nil,
    List.sorted_nil, and_true] at hsorted
  simp only [List.nodup_cons, List.mem_cons, List.mem_singleton, List.not_mem_nil,
    List.nodup_nil, and_true, not_or] at hsnd
  have h78 : a7 < a8 := lt_of_le_of_ne (hsorted.2.2.2.2.2.2.2.1 a8 (by simp))
    (by tauto)
  have h89 : a8 ≤ a9 := hsorted.2.2.2.2.2.2.2.2.1 a9 (by simp)
  have hcut7 : a7 < cut := by rw [← hcut]; linarith
  have hcut8 : cut ≤ a8 := by rw [← hcut]; linarith
  have hcut9 : cut ≤ a9 := le_trans hcut8 h89
  have hc0 : decide (cut ≤ a0) = false := by
    rw [decide_eq_false_iff_not, not_le]
    have := hsorted.1 a7 (by simp)
    linarith
  have hc1 : decide (cut ≤ a1) = false := by
    rw [decide_eq_false_iff_not, not_le]
    have := hsorted.2.1 a7 (by simp)
    linarith
  have hc2 : decide (cut ≤ a2) = false := by
    rw [decide_eq_false_iff_not, not_le]
    have := hsorted.2.2.1 a7 (by simp)
    linarith
  have hc3 : decide (cut ≤ a3) = false := by
    rw [decide_eq_false_iff_not, not_le]
    have := hsorted.2.2.2.1 a7 (by simp)
    linarith
  have hc4 : decide (cut ≤ a4) = false := by
    rw [decide_eq_false_iff_not, not_le]
    have := hsorted.2.2.2.2.1 a7 (by simp)
    linarith
  have hc5 : decide (cut ≤ a5) = false := by
    rw [decide_eq_false_iff_not, not_le]
    have := hsorted.2.2.2.2.2.1 a7 (by simp)
    linarith
  have hc6 : decide (cut ≤ a6) = false := by
    rw [decide_eq_false_iff_not, not_le]
    have := hsorted.2.2.2.2.2.2.1 a7 (by simp)
    linarith
  have hc7 : decide (cut ≤ a7) = false := by
    rw [decide_eq_false_iff_not, not_le]
    linarith
  have hc8 : decide (cut ≤ a8) = true := decide_eq_true hcut8
  have hc9 : decide (cut ≤ a9) = true := decide_eq_true hcut9
  have hcount := (hperm.countP_eq (fun x => decide (cut ≤ x))).symm
  rw [heq] at hcount
  rw [hcount]
  simp [List.countP_cons, hc0, hc1, hc2, hc3, hc4, hc5, hc6, hc7, hc8, hc9]

/-- On ten distinct values, the inclusive selection at the linearly
interpolated 0.2-quantile catches exactly the bottom two. -/
theorem countP_le_quantile_ten {xs : List ℚ} {cut : ℚ} (hlen : xs.length = 10)
    (hnd : xs.Nodup) (hcut : quantile (1/5) xs = some cut) :
    xs.countP (fun x => decide (x ≤ cut)) = 2 := by
  have hxne : xs ≠ [] := by
    intro h
    rw [h] at hlen
    cases hlen
  have hperm : (List.insertionSort (· ≤ ·) xs).Perm xs := List.perm_insertionSort _ xs
  have hsorted : (List.insertionSort (· ≤ ·) xs).Sorted (· ≤ ·) :=
    List.sorted_insertionSort _ xs
  have hslen : (List.insertionSort (· ≤ ·) xs).length = 10 := by
    rw [hperm.length_eq, hlen]
  have hsnd : (List.insertionSort (· ≤ ·) xs).Nodup := hperm.nodup_iff.mpr hnd
  rcases exists_len10 _ hslen with ⟨a0, a1, a2, a3, a4, a5, a6, a7, a8, a9, heq⟩
  rw [quantile, if_neg (by simpa using hxne), heq] at hcut
  simp only [List.length_cons, List.length_nil] at hcut
  norm_num at hcut
  norm_num [show Int.toNat 1 = 1 from rfl] at hcut
  rw [heq] at hsorted hsnd
  simp only [List.sorted_cons, List.mem_cons, List.mem_singleton, List.not_mem_nil,
    List.sorted_nil, and_true] at hsorted
  simp only [List.nodup_cons, List.mem_cons, List.mem_singleton, List.not_mem_nil,
    List.nodup_nil, and_true, not_or] at hsnd
  have h01 : a0 ≤ a1 := hsorted.1 a1 (by simp)
  have h12 : a1 < a2 := lt_of_le_of_ne (hsorted.2.1 a2 (by simp)) (by tauto)
  have hcut1 : a1 ≤ cut := by rw [← hcut]; linarith
  have hcut0 : a0 ≤ cut := le_trans h01 hcut1
  have hcut2 : cut < a2 := by rw [← hcut]; linarith
  have hc0 : decide (a0 ≤ cut) = true := decide_eq_true hcut0
  have hc1 : decide (a1 ≤ cut) = true := decide_eq_true hcut1
  have hc2 : decide (a2 ≤ cut) = false := by
    rw [decide_eq_false_iff_not, not_le]
    exact hcut2
  have hc3 : decide (a3 ≤ cut) = false := by
    rw [decide_eq_false_iff_not, not_le]
    have := hsorted.2.2.1 a3 (by simp)
    linarith
  have hc4 : decide (a4 ≤ cut) = false := by
    rw [decide_eq_false_iff_not, not_le]
    have := hsorted.2.2.1 a4 (by simp)
    linarith
  have hc5 : decide (a5 ≤ cut) = false := by
    rw [decide_eq_false_iff_not, not_le]
    have := hsorted.2.2.1 a5 (by simp)
    linarith
  have hc6 : decide (a6 ≤ cut) = false := by
    rw [decide_eq_false_iff_not, not_le]
    have := hsorted.2.2.1 a6 (by simp)
    linarith
  have hc7 : decide (a7 ≤ cut) = false := by
    rw [decide_eq_false_iff_not, not_le]
    have := hsorted.2.2.1 a7 (by simp)
    linarith
  have hc8 : decide (a8 ≤ cut) = false := by
    rw [decide_eq_false_iff_not, not_le]
    have := hsorted.2.2.1 a8 (by simp)
    linarith
  have hc9 : decide (a9 ≤ cut) = false := by
    rw [decide_eq_false_iff_not, not_le]
    have := hsorted.2.2.1 a9 (by simp)
    linarith
  have hcount := (hperm.countP_eq (fun x => decide (x ≤ cut))).symm
  rw [heq] at hcount
  rw [hcount]
  simp [List.countP_cons, hc0, hc1, hc2, hc3, hc4, hc5, hc6, hc7, hc8, hc9]

theorem momSeries_length (df : DF ℚ) : (momSeries df).length = df.cols.length := by
  rw [momSeries, List.length_map, List.enum_length]

theorem momentum_weights_countP_eq (df : DF ℚ) (q : ℚ) {cut : ℚ} (hnd : df.cols.Nodup)
    (hcut : quantile (1 - q) ((momSeries df).map Prod.snd) = some cut)
    (hk : (momSeries df).countP (fun p => decide (cut ≤ p.2)) ≠ 0) :
    compute_momentum_weights df q =
      (momSeries df).map (fun p => (p.1, some (if cut ≤ p.2 then
        1 / (((momSeries df).countP (fun p2 => decide (cut ≤ p2.2))) : ℚ) else 0))) := by
  have hndm : ((momSeries df).map Prod.fst).Nodup := by
    rw [momSeries_map_fst]
    exact hnd
  have hklen : ((momSeries df).filter (fun p2 => decide (cut ≤ p2.2))).length ≠ 0 := by
    rw [← List.countP_eq_length_filter]
    exact hk
  rw [momentum_weights_eq df q hcut hklen]
  refine List.map_congr_left (fun p2 hp2 => ?_)
  have hiff := mem_sel_iff hndm hp2 (fun p3 => decide (cut ≤ p3.2))
  have hlen2 : (((momSeries df).filter (fun p3 => decide (cut ≤ p3.2))).map Prod.fst).length
      = (momSeries df).countP (fun p3 => decide (cut ≤ p3.2)) := by
    rw [List.length_map, List.countP_eq_length_filter]
  rw [hlen2]
  exact congrArg (fun z => (p2.1, some z)) (if_congr (hiff.trans (by simp)) rfl rfl)

theorem reversal_weights_countP_eq (df : DF ℚ) (q : ℚ) {cut : ℚ} (hnd : df.cols.Nodup)
    (hcut : quantile q ((momSeries df).map Prod.snd) = some cut)
    (hk : (momSeries df).countP (fun p => decide (p.2 ≤ cut)) ≠ 0) :
    compute_reversal_weights df q =
      (momSeries df).map (fun p => (p.1, some (if p.2 ≤ cut then
        1 / (((momSeries df).countP (fun p2 => decide (p2.2 ≤ cut))) : ℚ) else 0))) := by
  have hndm : ((momSeries df).map Prod.fst).Nodup := by
    rw [momSeries_map_fst]
    exact hnd
  have hklen : ((momSeries df).filter (fun p2 => decide (p2.2 ≤ cut))).length ≠ 0 := by
    rw [← List.countP_eq_length_filter]
    exact hk
  rw [reversal_weights_eq df q hcut hklen]
  refine List.map_congr_left (fun p2 hp2 => ?_)
  have hiff := mem_sel_iff hndm hp2 (fun p3 => decide (p3.2 ≤ cut))
  have hlen2 : (((momSeries df).filter (fun p3 => decide (p3.2 ≤ cut))).map Prod.fst).length
      = (momSeries df).countP (fun p3 => decide (p3.2 ≤ cut)) := by
    rw [List.length_map, List.countP_eq_length_filter]
  rw [hlen2]
  exact congrArg (fun z => (p2.1, some z)) (if_congr (hiff.trans (by simp)) rfl rfl)

/-- C3: Momentum selects exactly the assets whose compounded previous
month return `Π(1+r) − 1` sits at or above the interpolated
`(1−q)`-quantile (inclusive boundary), equal-weights the selected set and
zeroes the rest (first clause); with `q = 0.2` over 10 assets carrying
distinct momentum values exactly 2 assets are selected, each weighted
`1/2`, and every selected asset strictly beats every unselected one
(second clause); Reversal under the same setup selects exactly the 2
worst performers, each weighted `1/2` (third clause). -/
theorem momentum_quantile_selection :
    (∀ (df : DF ℚ) (q cut : ℚ), 0 ≤ q → q ≤ 1 → df.cols.Nodup → df.cols ≠ [] →
      quantile (1 - q) ((momSeries df).map Prod.snd) = some cut →
      0 < (momSeries df).countP (fun p => decide (cut ≤ p.2))
      ∧ compute_momentum_weights df q =
          (momSeries df).map (fun p => (p.1, some (if cut ≤ p.2 then
            1 / (((momSeries df).countP (fun p2 => decide (cut ≤ p2.2))) : ℚ) else 0))))
  ∧ (∀ (df : DF ℚ) (cut : ℚ), df.cols.Nodup → df.cols.length = 10 →
      ((momSeries df).map Prod.snd).Nodup →
      quantile (4/5) ((momSeries df).map Prod.snd) = some cut →
      (momSeries df).countP (fun p => decide (cut ≤ p.2)) = 2
      ∧ compute_momentum_weights df (1/5) =
          (momSeries df).map (fun p => (p.1, some (if cut ≤ p.2 then (1/2 : ℚ) else 0)))
      ∧ ∀ p ∈ momSeries df, cut ≤ p.2 →
          ∀ p2 ∈ momSeries df, ¬ cut ≤ p2.2 → p2.2 < p.2)
  ∧ (∀ (df : DF ℚ) (cut : ℚ), df.cols.Nodup → df.cols.length = 10 →
      ((momSeries df).map Prod.snd).Nodup →
      quantile (1/5) ((momSeries df).map Prod.snd) = some cut →
      (momSeries df).countP (fun p => decide (p.2 ≤ cut)) = 2
      ∧ compute_reversal_weights df (1/5) =
          (momSeries df).map (fun p => (p.1, some (if p.2 ≤ cut then (1/2 : ℚ) else 0)))
      ∧ ∀ p ∈ momSeries df, p.2 ≤ cut →
          ∀ p2 ∈ momSeries df, ¬ p2.2 ≤ cut → p.2 < p2.2) := by
  refine ⟨?_, ?_, ?_⟩
  · intro df q cut h0 h1 hnd hne hcut
    have hvne : (momSeries df).map Prod.snd ≠ [] := by
      intro h
      exact momSeries_ne_nil hne (by simpa using h)
    rcases (quantile_between (by linarith) (by linarith) hvne hcut).1 with ⟨x, hx, hcx⟩
    rcases List.mem_map.mp hx with ⟨p, hp, hpx⟩
    have hpos : 0 < (momSeries df).countP (fun p2 => decide (cut ≤ p2.2)) :=
      List.countP_pos_iff.mpr ⟨p, hp, by simpa [hpx] using hcx⟩
    exact ⟨hpos, momentum_weights_countP_eq df q hnd hcut (by omega)⟩
  · intro df cut hnd hlen hvnd hcut
    have hmlen : ((momSeries df).map Prod.snd).length = 10 := by
      rw [List.length_map, momSeries_length, hlen]
    have hcount2 := countP_ge_quantile_ten hmlen hvnd hcut
    rw [List.countP_map] at hcount2
    have hcountp : (momSeries df).countP (fun p => decide (cut ≤ p.2)) = 2 := hcount2
    refine ⟨hcountp, ?_, ?_⟩
    · have hcut2 : quantile (1 - 1/5) ((momSeries df).map Prod.snd) = some cut := by
        rw [show (1 : ℚ) - 1/5 = 4/5 by norm_num]
        exact hcut
      rw [momentum_weights_countP_eq df (1/5) hnd hcut2 (by omega), hcountp]
      norm_num
    · intro p hp hple p2 hp2 hnot
      rw [not_le] at hnot
      linarith
  · intro df cut hnd hlen hvnd hcut
    have hmlen : ((momSeries df).map Prod.snd).length = 10 := by
      rw [List.length_map, momSeries_length, hlen]
    have hcount2 := countP_le_quantile_ten hmlen hvnd hcut
    rw [List.countP_map] at hcount2
    have hcountp : (momSeries df).countP (fun p => decide (p.2 ≤ cut)) = 2 := hcount2
    refine ⟨hcountp, ?_, ?_⟩
    · rw [reversal_weights_countP_eq df (1/5) hnd hcut (by omega), hcountp]
      norm_num
    · intro p hp hple p2 hp2 hnot
      rw [not_le] at hnot
      linarith

/-- Witness for C3 at the concrete ten-asset table. -/
theorem momentum_quantile_selection_wit :
    (momSeries mdf10).countP (fun p => decide ((9/125 : ℚ) ≤ p.2)) = 2
    ∧ compute_momentum_weights mdf10 (1/5) =
        (momSeries mdf10).map (fun p =>
          (p.1, some (if (9/125 : ℚ) ≤ p.2 then (1/2 : ℚ) else 0)))
    ∧ (momSeries mdf10).countP (fun p => decide (p.2 ≤ (9/500 : ℚ))) = 2
    ∧ compute_reversal_weights mdf10 (1/5) =
        (momSeries mdf10).map (fun p =>
          (p.1, some (if p.2 ≤ (9/500 : ℚ) then (1/2 : ℚ) else 0))) := by
  have hmv : (momSeries mdf10).map Prod.snd =
      [0, 1/100, 2/100, 3/100, 4/100, 5/100, 6/100, 7/100, 8/100, 9/100] := by
    simp [momSeries, DF.colVals, mdf10, List.enum, prodOnePlus, definedVals]
    try norm_num
  have hvnd : ((momSeries mdf10).map Prod.snd).Nodup := by
    rw [hmv]
    norm_num
  have hcutm : quantile (4/5) ((momSeries mdf10).map Prod.snd) = some (9/125) := by
    rw [hmv, quantile]
    norm_num [List.insertionSort, List.orderedInsert]
    try norm_num [Int.floor_eq_iff, show Int.toNat 7 = 7 from rfl]
  have hcutr : quantile (1/5) ((momSeries mdf10).map Prod.snd) = some (9/500) := by
    rw [hmv, quantile]
    norm_num [List.insertionSort, List.orderedInsert]
    try norm_num [Int.floor_eq_iff, show Int.toNat 1 = 1 from rfl]
  have hm := momentum_quantile_selection.2.1 mdf10 (9/125) (by decide) (by decide) hvnd hcutm
  have hr := momentum_quantile_selection.2.2 mdf10 (9/500) (by decide) (by decide) hvnd hcutr
  exact ⟨hm.1, hm.2.1, hr.1, hr.2.1⟩

/-! ### C6: max drawdown -/

theorem FVle_refl (a : FV) : FV.le a a = true := by
  cases a <;> simp [FV.le]

theorem FVle_total (a b : FV) : FV.le a b = true ∨ FV.le b a = true := by
  cases a <;> cases b <;> simp [FV.le]
  exact le_total _ _

theorem FVle_trans {a b c : FV} (hab : FV.le a b = true) (hbc : FV.le b c = true) :
    FV.le a c = true := by
  cases a <;> cases b <;> cases c <;> simp [FV.le] at *
  exact le_trans hab hbc

theorem minFold_le_init (l : List FV) (a : FV) :
    FV.le (l.foldl (fun x y => if FV.le x y then x else y) a) a = true := by
  induction l generalizing a with
  | nil => exact FVle_refl a
  | cons b l ih =>
    show FV.le ((l.foldl _ (if FV.le a b then a else b))) a = true
    by_cases hab : FV.le a b = true
    · rw [if_pos hab]
      exact ih a
    · rw [if_neg hab]
      have hba : FV.le b a = true := (FVle_total a b).resolve_left hab
      exact FVle_trans (ih b) hba

theorem minSkipna_cons_some (y : FV) (l : List (Option FV)) :
    minSkipna (some y :: l) =
      some ((l.filterMap id).foldl (fun a b => if FV.le a b then a else b) y) := by
  rw [minSkipna, List.filterMap_cons_some (rfl : id (some y) = some y)]

theorem minSkipna_cons_none (l : List (Option FV)) :
    minSkipna (none :: l) = minSkipna l := by
  rw [minSkipna, minSkipna, List.filterMap_cons_none (rfl : id (none : Option FV) = none)]

theorem minSkipna_all_none {l : List (Option FV)} (h : ∀ x ∈ l, x = none) :
    minSkipna l = none := by
  have hfm : l.filterMap id = [] := by
    induction l with
    | nil => rfl
    | cons x xs ih =>
      have hx := h x (List.mem_cons_self x xs)
      rw [hx, List.filterMap_cons_none (rfl : id (none : Option FV) = none)]
      exact ih (fun y hy => h y (List.mem_cons_of_mem x hy))
  rw [minSkipna, hfm]

/-- Once wealth has hit exactly zero, every later drawdown cell is `0/0`,
i.e. NaN. -/
theorem dd_zero_state (xs : List (Option ℚ)) :
    ∀ x ∈ List.zipWith ddCell (cumprodSkip 0 xs)
      (cummaxSkip (some 0) (cumprodSkip 0 xs)), x = none := by
  induction xs with
  | nil =>
    intro x hx
    cases hx
  | cons r xs ih =>
    cases r with
    | none =>
      intro x hx
      rw [cumprodSkip, cummaxSkip, List.zipWith_cons_cons] at hx
      rcases List.mem_cons.mp hx with h | h
      · rw [h]
        rfl
      · exact ih x h
    | some rv =>
      intro x hx
      rw [cumprodSkip, zero_mul, cummaxSkip, List.zipWith_cons_cons] at hx
      rw [max_self] at hx
      rcases List.mem_cons.mp hx with h | h
      · rw [h, ddCell, fdiv]
        norm_num
      · exact ih x h

/-- Wherever the minimum of the drawdown series is defined, it is at most
0 (the first defined drawdown cell is exactly 0 unless wealth starts at 0,
in which case every cell is NaN and the minimum is undefined). -/
theorem maxdd_nonpos (rs : List (Option ℚ)) :
    ∀ m, minSkipna (drawdownList rs) = some m → FV.le m (.fin 0) = true := by
  induction rs with
  | nil =>
    intro m hm
    cases hm
  | cons r rs ih =>
    cases r with
    | none =>
      intro m hm
      have heq : drawdownList (none :: rs) = none :: drawdownList rs := by
        rw [drawdownList, drawdownList, cumprodSkip, cummaxSkip, List.zipWith_cons_cons]
        rfl
      rw [heq, minSkipna_cons_none] at hm
      exact ih m hm
    | some rv =>
      intro m hm
      by_cases hz : (1 : ℚ) * (1 + rv) = 0
      · have hall : ∀ x ∈ drawdownList (some rv :: rs), x = none := by
          intro x hx
          rw [drawdownList, cumprodSkip, hz, cummaxSkip, List.zipWith_cons_cons] at hx
          rcases List.mem_cons.mp hx with h | h
          · rw [h, ddCell, fdiv]
            norm_num
          · exact dd_zero_state rs x h
        rw [minSkipna_all_none hall] at hm
        cases hm
      · have hhead : drawdownList (some rv :: rs) =
            some (.fin 0) :: List.zipWith ddCell (cumprodSkip (1 * (1 + rv)) rs)
              (cummaxSkip (some (1 * (1 + rv))) (cumprodSkip (1 * (1 + rv)) rs)) := by
          rw [drawdownList, cumprodSkip, cummaxSkip, List.zipWith_cons_cons]
          congr 1
          rw [ddCell, fdiv, if_pos hz]
          rw [sub_self, zero_div]
        rw [hhead, minSkipna_cons_some] at hm
        rw [← Option.some.inj hm]
        exact minFold_le_init _ _

/-- C6 (amended): the evaluator's max drawdown is exactly
`min over t of (wealth_t - runningMax_t) / runningMax_t` with
`wealth_t = Π(1+r_s)` (skipna, as pandas computes it), and whenever that
minimum is a defined value it is ≤ 0; it is **not** always a defined value
≤ 0 — a series whose first defined return is exactly −1 drives wealth to
0, every drawdown cell to NaN (0/0), and the max drawdown to NaN. -/
theorem max_drawdown_amended :
    ∀ (sq : ℚ → ℚ) (freq : ℕ) (rs : List (Option ℚ)),
      ((evaluate_portfolio sq freq rs).maxDrawdown = minSkipna (drawdownList rs))
    ∧ (∀ m, (evaluate_portfolio sq freq rs).maxDrawdown = some m →
        FV.le m (.fin 0) = true) := by
  intro sq freq rs
  exact ⟨rfl, fun m hm => maxdd_nonpos rs m hm⟩

/-- C6 counterexample: the series `[-1]` (a single total-loss day) makes
wealth 0 and the drawdown `0/0`, so `max_dd` is NaN — not a number ≤ 0,
refuting "always ≤ 0". -/
theorem max_drawdown_nan_cx :
    (evaluate_portfolio id 252 [some (-1 : ℚ)]).maxDrawdown = none := by
  simp [evaluate_portfolio, minSkipna, drawdownList, cumprodSkip, cummaxSkip, ddCell, fdiv]
  try norm_num

/-- Witness for C6 at a concrete two-day series. -/
theorem max_drawdown_amended_wit :
    (evaluate_portfolio id 2 [some (1/2 : ℚ), some (-1/4)]).maxDrawdown =
      some (.fin (-1/4))
    ∧ FV.le (.fin (-1/4 : ℚ)) (.fin 0) = true := by
  have h1 : (evaluate_portfolio id 2 [some (1/2 : ℚ), some (-1/4)]).maxDrawdown =
      some (.fin (-1/4)) := by
    simp [evaluate_portfolio, minSkipna, drawdownList, cumprodSkip, cummaxSkip, ddCell,
      fdiv, List.filterMap, FV.le]
    try norm_num [FV.le]
  exact ⟨h1, (max_drawdown_amended id 2 [some (1/2), some (-1/4)]).2 _ h1⟩

end CryptoPortfolio
